import Mathlib

/-!
Shallow embedding of the article-simplifier core (`src/article_simplifier.h`):
text analysis (syllable counting, sentence segmentation, Flesch score and
CEFR level estimate), the vocabulary table, sentence rewriting (parenthesis
stripping, word substitution, conjunction splitting) and the simplification
pipeline (sentence splitting, rejoining, full run).

Text is modelled as `List Char`; the C++ `double` arithmetic of the analyzer
is modelled with exact rationals (`ℚ`); C `int` counters are modelled with
`Int`/`Nat` (their values here are bounded by text length, far from overflow).
-/

namespace ArticleSimplifier

/-- The CEFR levels supported by the tool (`enum class CEFRLevel`). -/
inductive CEFRLevel where
  | A1
  | A2
deriving DecidableEq, Repr

/-- C `::tolower` in the C locale, on ASCII: maps A-Z to a-z, all else kept. -/
def toLowerC (c : Char) : Char :=
  if 'A' ≤ c ∧ c ≤ 'Z' then Char.ofNat (c.toNat + 32) else c

/-- C `::toupper` in the C locale, on ASCII: maps a-z to A-Z, all else kept. -/
def toUpperC (c : Char) : Char :=
  if 'a' ≤ c ∧ c ≤ 'z' then Char.ofNat (c.toNat - 32) else c

/-- C `std::isalpha` in the C locale (ASCII letters). -/
def isAlphaC (c : Char) : Bool :=
  ('a' ≤ c && c ≤ 'z') || ('A' ≤ c && c ≤ 'Z')

/-- C `std::isdigit` (ASCII digits); used to define `isPunctC`. -/
def isDigitC (c : Char) : Bool :=
  '0' ≤ c && c ≤ '9'

/-- C `std::ispunct` in the C locale: printable ASCII that is neither
alphanumeric nor the space character. -/
def isPunctC (c : Char) : Bool :=
  33 ≤ c.toNat && c.toNat ≤ 126 && !isAlphaC c && !isDigitC c

/-- Whitespace as recognised by `std::istringstream` extraction
(`operator>>`) in the C locale. -/
def isSpaceC (c : Char) : Bool :=
  c == ' ' || c == '\t' || c == '\n' || c == '\x0b' || c == '\x0c' || c == '\r'

/-- Membership in the string `vowels = "aeiouy"` of `countSyllables`. -/
def isVowel (c : Char) : Bool :=
  c == 'a' || c == 'e' || c == 'i' || c == 'o' || c == 'u' || c == 'y'

/-- The scanning loop of `TextAnalyzer::countSyllables`: walk the word
carrying the `lastWasVowel` flag, counting characters that are vowels not
preceded by a vowel. -/
def sylLoop : List Char → Bool → Int
  | [], _ => 0
  | c :: cs, lastWasVowel =>
    (if isVowel c && !lastWasVowel then 1 else 0) + sylLoop cs (isVowel c)

/-- `TextAnalyzer::countSyllables`: lowercase, count vowel-group starts,
apply the silent-e decrement for words of length > 2 ending in 'e', and
clamp the result below at 1. -/
def countSyllables (rawWord : List Char) : Int :=
  let word := rawWord.map toLowerC
  let n := sylLoop word false
  let n := if word.length > 2 ∧ word.getLast? = some 'e' then n - 1 else n
  max 1 n

/-- Spec-side notion for C1: a character is a vowel-group start when it is
in {a,e,i,o,u,y} and the previous character (if any) is not. -/
def isGroupStart (prev : Option Char) (c : Char) : Bool :=
  isVowel c && !(match prev with | some p => isVowel p | none => false)

/-- Spec-side count for C1: the number of vowel-group starts of a word,
counted over each character paired with its predecessor. -/
def vowelGroupStarts (w : List Char) : Nat :=
  ((none :: w.map some).zip w).countP (fun pc => isGroupStart pc.1 pc.2)

/-- The scanning loop agrees with the predecessor-pairing count, for any
initial predecessor. -/
theorem sylLoop_eq_countGroupStarts (w : List Char) (p : Option Char) :
    sylLoop w (match p with | some c => isVowel c | none => false)
      = (((p :: w.map some).zip w).countP (fun pc => isGroupStart pc.1 pc.2) : Int) := by
  induction w generalizing p with
  | nil => simp [sylLoop]
  | cons c cs ih =>
    have h := ih (some c)
    simp only [List.map_cons, List.zip_cons_cons, List.countP_cons] at *
    simp only [sylLoop, h, isGroupStart]
    push_cast
    ring

theorem sylLoop_eq_vowelGroupStarts (w : List Char) :
    sylLoop w false = (vowelGroupStarts w : Int) := by
  simpa using sylLoop_eq_countGroupStarts w none

/-- A sentence terminator: '.', '!' or '?'. -/
def isTerminator (c : Char) : Bool :=
  c == '.' || c == '!' || c == '?'

/-- The sentence-collecting loop of `TextAnalyzer::analyze` (lines 43-51):
append each character to the running sentence, close it after a terminator;
the pending tail at the end of the text is dropped. -/
def analyzeSplitAux : List Char → List Char → List (List Char)
  | [], _ => []
  | c :: rest, cur =>
    let cur' := cur ++ [c]
    if isTerminator c then cur' :: analyzeSplitAux rest []
    else analyzeSplitAux rest cur'

/-- The sentences `TextAnalyzer::analyze` works on. -/
def analyzeSentences (text : List Char) : List (List Char) :=
  analyzeSplitAux text []

/-- `Simplifier::splitSentences`: same loop, but the source also checks
`!cur.empty()` before closing (vacuous, since `c` was just appended) and
keeps a non-empty pending tail as a final sentence. -/
def splitSentencesAux : List Char → List Char → List (List Char)
  | [], cur => if cur ≠ [] then [cur] else []
  | c :: rest, cur =>
    let cur' := cur ++ [c]
    if isTerminator c ∧ cur' ≠ [] then cur' :: splitSentencesAux rest []
    else splitSentencesAux rest cur'

/-- `Simplifier::splitSentences` on a whole text. -/
def splitSentences (text : List Char) : List (List Char) :=
  splitSentencesAux text []

/-- The pending (unterminated) tail left by the sentence scan: the suffix of
the text after its last terminator. -/
def trailingFragmentAux : List Char → List Char → List Char
  | [], cur => cur
  | c :: rest, cur =>
    if isTerminator c then trailingFragmentAux rest []
    else trailingFragmentAux rest (cur ++ [c])

def trailingFragment (text : List Char) : List Char :=
  trailingFragmentAux text []

theorem splitSentencesAux_eq (l : List Char) :
    ∀ cur, splitSentencesAux l cur
      = analyzeSplitAux l cur
          ++ (if trailingFragmentAux l cur = [] then [] else [trailingFragmentAux l cur]) := by
  induction l with
  | nil =>
    intro cur
    by_cases h : cur = [] <;>
      simp [splitSentencesAux, analyzeSplitAux, trailingFragmentAux, h]
  | cons c rest ih =>
    intro cur
    by_cases h : isTerminator c
    · simp [splitSentencesAux, analyzeSplitAux, trailingFragmentAux, h, ih]
    · simp [splitSentencesAux, analyzeSplitAux, trailingFragmentAux, h, ih]

theorem trailingFragmentAux_append (cs : List Char) (c : Char) :
    ∀ cur, trailingFragmentAux (cs ++ [c]) cur
      = if isTerminator c then [] else trailingFragmentAux cs cur ++ [c] := by
  induction cs with
  | nil =>
    intro cur
    by_cases h : isTerminator c <;> simp [trailingFragmentAux, h]
  | cons d ds ih =>
    intro cur
    by_cases h : isTerminator d <;> simp [trailingFragmentAux, h, ih]

/-- The join of the closed sentences and the pending tail reconstruct the
scanned text (relative to any running sentence). -/
theorem analyzeSplitAux_join (l : List Char) :
    ∀ cur, (analyzeSplitAux l cur).flatten ++ trailingFragmentAux l cur = cur ++ l := by
  induction l with
  | nil => intro cur; simp [analyzeSplitAux, trailingFragmentAux]
  | cons c rest ih =>
    intro cur
    by_cases h : isTerminator c <;>
      simp [analyzeSplitAux, trailingFragmentAux, h, ih]

/-- Whitespace tokenization, as performed by repeated `ss >> tok` on an
`std::istringstream`: maximal runs of non-whitespace characters. -/
def wsTokensAux : List Char → List Char → List (List Char)
  | [], cur => if cur = [] then [] else [cur]
  | c :: rest, cur =>
    if isSpaceC c then
      if cur = [] then wsTokensAux rest [] else cur :: wsTokensAux rest []
    else wsTokensAux rest (cur ++ [c])

def wsTokens (s : List Char) : List (List Char) :=
  wsTokensAux s []

/-- Per-sentence word/syllable accumulation of `TextAnalyzer::analyze`
(lines 58-70): tokenize on whitespace, strip non-alphabetic characters from
each token, drop empty results, count the rest and sum their syllables. -/
def sentenceStats (sent : List Char) : Nat × Int :=
  (wsTokens sent).foldl
    (fun acc tok =>
      let t := tok.filter isAlphaC
      if t = [] then acc else (acc.1 + 1, acc.2 + countSyllables t))
    (0, 0)

/-- Total word and syllable counts over a sentence list. -/
def textStats (sentences : List (List Char)) : Nat × Int :=
  sentences.foldl (fun acc sent =>
    ((sentenceStats sent).1 + acc.1, (sentenceStats sent).2 + acc.2)) (0, 0)

/-- `TextAnalyzer::Metrics`. Modelled from the spec: the struct itself is
declared in the header `article_simplifier.h`, which is absent from the
sources; per the spec a fresh record is zero-valued ("If no sentences are
found, return a zero-valued metrics record immediately"). Doubles are
modelled as exact rationals. -/
structure Metrics where
  avgWordsPerSentence : ℚ := 0
  avgSyllablesPerWord : ℚ := 0
  fleschScore : ℚ := 0
  cefrEstimate : Int := 0
deriving DecidableEq, Repr

/-- `TextAnalyzer::calcFlesch`. -/
def calcFlesch (wps spw : ℚ) : ℚ :=
  206.835 - (1.015 * wps) - (84.6 * spw)

/-- The threshold chain of `TextAnalyzer::analyze` (lines 77-83) mapping a
Flesch score to a CEFR estimate. -/
def cefrOf (f : ℚ) : Int :=
  if f ≥ 80 then 1
  else if f ≥ 65 then 2
  else if f ≥ 50 then 3
  else if f ≥ 40 then 4
  else if f ≥ 25 then 5
  else 6

/-- `TextAnalyzer::analyze`. -/
def analyze (text : List Char) : Metrics :=
  let sentences := analyzeSentences text
  if sentences = [] then {}
  else
    let totalWords := (textStats sentences).1
    let totalSyllables := (textStats sentences).2
    let wps : ℚ := (totalWords : ℚ) / (sentences.length : ℚ)
    let spw : ℚ := if totalWords > 0 then (totalSyllables : ℚ) / (totalWords : ℚ) else 0
    let f := calcFlesch wps spw
    { avgWordsPerSentence := wps
      avgSyllablesPerWord := spw
      fleschScore := f
      cefrEstimate := cefrOf f }

/-- The A1 (beginner) hard-word table of `Vocabulary::loadA1`, as an
association list with the keys of the source. -/
def a1Pairs : List (List Char × List Char) :=
  [("utilize".data, "use".data),
   ("commence".data, "start".data),
   ("terminate".data, "end".data),
   ("residence".data, "home".data),
   ("purchase".data, "buy".data),
   ("inquire".data, "ask".data),
   ("observe".data, "see".data),
   ("obtain".data, "get".data),
   ("assistance".data, "help".data),
   ("demonstrate".data, "show".data),
   ("approximately".data, "about".data),
   ("sufficient".data, "enough".data),
   ("however".data, "but".data),
   ("therefore".data, "so".data),
   ("additionally".data, "also".data),
   ("attempt".data, "try".data),
   ("require".data, "need".data)]

/-- The A2 additions of `Vocabulary::loadA2` (layered on top of the A1
table; all keys are distinct, so the association-list order is irrelevant
to lookup, matching `std::map::find`). -/
def a2Pairs : List (List Char × List Char) :=
  a1Pairs ++
  [("facilitate".data, "help".data),
   ("construct".data, "build".data),
   ("complete".data, "finish".data),
   ("numerous".data, "many".data),
   ("previously".data, "before".data)]

/-- The `wordMap_` of a `Vocabulary` constructed at a given level. -/
def wordMap (lvl : CEFRLevel) : List (List Char × List Char) :=
  match lvl with
  | .A1 => a1Pairs
  | .A2 => a2Pairs

/-- `Vocabulary::isSimple`: true iff the lowercased word is not a key. -/
def isSimple (lvl : CEFRLevel) (word : List Char) : Bool :=
  ((wordMap lvl).lookup (word.map toLowerC)).isNone

/-- `Vocabulary::getSimplerWord`: lowercase, look up, fall back to the
original word. -/
def getSimplerWord (lvl : CEFRLevel) (word : List Char) : List Char :=
  match (wordMap lvl).lookup (word.map toLowerC) with
  | some s => s
  | none => word

/-- The word-count limit of `SentenceRewriter::trySplit`: 10 for A1, 15 for
A2. -/
def splitLimit (lvl : CEFRLevel) : Nat :=
  match lvl with
  | .A1 => 10
  | .A2 => 15

/-- Whether a token, lowercased, is one of the splitting conjunctions. -/
def isConj (w : List Char) : Bool :=
  let lw := w.map toLowerC
  lw == "and".data || lw == "but".data || lw == "because".data

/-- The chunking loop of `SentenceRewriter::trySplit` (lines 180-195):
append each word plus a space to the running chunk, close the chunk after a
conjunction once the running count has reached `limit / 2`, and keep any
non-empty remainder as a final chunk. -/
def splitChunksLoop (limit : Nat) : List (List Char) → List Char → Nat → List (List Char)
  | [], chunk, _ => if chunk = [] then [] else [chunk]
  | w :: ws, chunk, count =>
    let chunk' := chunk ++ w ++ [' ']
    let count' := count + 1
    if isConj w ∧ count' ≥ limit / 2 then
      chunk' :: splitChunksLoop limit ws [] 0
    else splitChunksLoop limit ws chunk' count'

/-- `SentenceRewriter::trySplit`. -/
def trySplit (lvl : CEFRLevel) (s : List Char) : List (List Char) :=
  let limit := splitLimit lvl
  let words := wsTokens s
  if words.length ≤ limit then [s]
  else splitChunksLoop limit words [] 0

/-- The regex-replace scan of `SentenceRewriter::stripParens`: each match
of the pattern "open paren, any run of non-close-paren characters, close
paren" is removed; an unmatched open paren is kept. Structured with a fuel
argument (every step consumes at least one character, so `s.length` fuel
always suffices) to keep the definition structurally recursive. -/
def stripParensFuel : Nat → List Char → List Char
  | 0, s => s
  | _, [] => []
  | fuel + 1, c :: rest =>
    if c = '(' then
      match rest.findIdx? (fun d => d == ')') with
      | some i => stripParensFuel fuel (rest.drop (i + 1))
      | none => c :: stripParensFuel fuel rest
    else c :: stripParensFuel fuel rest

def stripParensGo (s : List Char) : List Char :=
  stripParensFuel s.length s

/-- `SentenceRewriter::stripParens`: strip only for A1. -/
def stripParens (lvl : CEFRLevel) (s : List Char) : List Char :=
  if lvl = .A1 then stripParensGo s else s

/-- The trailing-punctuation split of `SentenceRewriter::swapWords`:
repeatedly pop punctuation characters off the back of the token, returning
the remaining word and the popped suffix in original order. -/
def splitPunct (tok : List Char) : List Char × List Char :=
  ((tok.reverse.dropWhile isPunctC).reverse, (tok.reverse.takeWhile isPunctC).reverse)

/-- `SentenceRewriter::swapWords`: tokenize on whitespace, substitute each
word (keeping its trailing punctuation), rejoin with single spaces; the
final `pop_back` removes the last trailing space when the result is
non-empty. -/
def swapWords (lvl : CEFRLevel) (s : List Char) : List Char :=
  let out := ((wsTokens s).map (fun tok =>
    getSimplerWord lvl (splitPunct tok).1 ++ (splitPunct tok).2 ++ [' '])).flatten
  out.dropLast

/-- `SentenceRewriter::fixPassive`: an explicit no-op stub. -/
def fixPassive (s : List Char) : List Char := s

/-- `SentenceRewriter::rewrite`: stripParens, then swapWords, then
fixPassive, then trySplit. -/
def rewrite (lvl : CEFRLevel) (sentence : List Char) : List (List Char) :=
  trySplit lvl (fixPassive (swapWords lvl (stripParens lvl sentence)))

/-- The per-chunk processing of `Simplifier::rejoin`: drop everything
before the first character outside " \t\n" (when one exists; otherwise the
chunk is kept as is), skip the chunk if empty, uppercase its first
character, append a period unless it already ends in a terminator, and
emit it followed by a space. -/
def rejoinChunk (p : List Char) : List (List Char) :=
  let s := match p.findIdx? (fun c => !(c == ' ' || c == '\t' || c == '\n')) with
    | some i => p.drop i
    | none => p
  match s with
  | [] => []
  | c :: cs =>
    let s := toUpperC c :: cs
    let s := if isTerminator (s.getLastD ' ') then s else s ++ ['.']
    [s ++ [' ']]

/-- `Simplifier::rejoin`: concatenate the processed chunks. -/
def rejoin (parts : List (List Char)) : List Char :=
  (parts.map rejoinChunk).flatten.flatten

/-- `SimplifiedArticle`. Modelled from the spec for the field list (the
struct is declared in the absent header); the fields are exactly those
`Simplifier::run` fills. -/
structure SimplifiedArticle where
  original : List Char
  simplified : List Char
  level : CEFRLevel
deriving DecidableEq, Repr

/-- `Simplifier::run` (the progress callback only reports counts and does
not affect the result). -/
def run (lvl : CEFRLevel) (text : List Char) : SimplifiedArticle :=
  let sentences := splitSentences text
  let result := (sentences.map (rewrite lvl)).flatten
  { original := text
    simplified := rejoin result
    level := lvl }

/-! ## Theorems for the claims -/

/-- C1: for every non-empty word, `countSyllables` equals the number of
vowel-group starts of the lowercased word, minus one when the lowercased
word has length > 2 and ends in 'e', clamped below at 1; the result is
always ≥ 1, `countSyllables "banana" = 3` and `countSyllables "the" = 1`. -/
theorem countSyllables_spec (w : List Char) (hw : w ≠ []) :
    countSyllables w
      = max 1 ((vowelGroupStarts (w.map toLowerC) : Int)
          - (if (w.map toLowerC).length > 2 ∧ (w.map toLowerC).getLast? = some 'e'
             then 1 else 0))
    ∧ 1 ≤ countSyllables w
    ∧ countSyllables "banana".data = 3
    ∧ countSyllables "the".data = 1 := by
  refine ⟨?_, le_max_left 1 _, by decide, by decide⟩
  simp only [countSyllables, sylLoop_eq_vowelGroupStarts]
  split_ifs <;> simp

/-- Witness for C1 at the word "banana". -/
theorem countSyllables_spec_witness :
    "banana".data ≠ [] ∧ countSyllables "banana".data = 3 :=
  ⟨by decide, (countSyllables_spec "banana".data (by decide)).2.2.1⟩

/-- Each Flesch score lands in one of the six levels. -/
theorem cefrOf_cases (f : ℚ) :
    cefrOf f = 1 ∨ cefrOf f = 2 ∨ cefrOf f = 3 ∨ cefrOf f = 4 ∨ cefrOf f = 5 ∨
      cefrOf f = 6 := by
  unfold cefrOf
  split_ifs <;> simp

/-- C2: whenever the analyzer finds sentences, `analyze` computes the
Flesch score as 206.835 − 1.015·wps − 84.6·spw and maps it through the
descending threshold chain `cefrOf`; the estimated level is always in
{0,…,6}, a score of exactly 80 maps to level 1 and 79.999 to level 2. -/
theorem analyze_flesch_spec (text : List Char) :
    (analyzeSentences text ≠ [] →
      (analyze text).fleschScore
        = 206.835 - 1.015 * (analyze text).avgWordsPerSentence
            - 84.6 * (analyze text).avgSyllablesPerWord
      ∧ (analyze text).cefrEstimate = cefrOf (analyze text).fleschScore)
    ∧ (analyze text).cefrEstimate ∈ ([0, 1, 2, 3, 4, 5, 6] : List Int)
    ∧ cefrOf 80 = 1 ∧ cefrOf (79.999 : ℚ) = 2 := by
  refine ⟨?_, ?_, by norm_num [cefrOf], by norm_num [cefrOf]⟩
  · intro h
    simp only [analyze, if_neg h]
    exact ⟨rfl, trivial⟩
  · by_cases h : analyzeSentences text = []
    · simp [analyze, h, Metrics.cefrEstimate]
    · simp only [analyze, if_neg h]
      rcases cefrOf_cases (calcFlesch
          ((((textStats (analyzeSentences text)).1 : ℚ)) / ((analyzeSentences text).length : ℚ))
          (if (textStats (analyzeSentences text)).1 > 0
           then ((textStats (analyzeSentences text)).2 : ℚ) / (((textStats (analyzeSentences text)).1 : ℚ))
           else 0)) with h1 | h1 | h1 | h1 | h1 | h1 <;> simp [h1]

/-- Witness for C2 at the text "Hi.". -/
theorem analyze_flesch_spec_witness :
    analyzeSentences "Hi.".data ≠ []
    ∧ (analyze "Hi.".data).cefrEstimate = cefrOf (analyze "Hi.".data).fleschScore :=
  ⟨by decide, ((analyze_flesch_spec "Hi.".data).1 (by decide)).2⟩

/-- C3: both segmentations close a sentence right after a terminator; they
differ only in the trailing unterminated fragment, which `analyze` drops
and `splitSentences` keeps as a final sentence, so they agree on every
text ending in a terminator. -/
theorem segmentation_asymmetry (text : List Char) :
    splitSentences text
      = analyzeSentences text
          ++ (if trailingFragment text = [] then [] else [trailingFragment text])
    ∧ (trailingFragment text ≠ [] →
        splitSentences text = analyzeSentences text ++ [trailingFragment text]
        ∧ analyzeSentences text ≠ splitSentences text)
    ∧ (∀ cs c, text = cs ++ [c] → isTerminator c →
        splitSentences text = analyzeSentences text) := by
  have hbase : splitSentences text
      = analyzeSentences text
          ++ (if trailingFragment text = [] then [] else [trailingFragment text]) :=
    splitSentencesAux_eq text []
  refine ⟨hbase, ?_, ?_⟩
  · intro h
    rw [if_neg h] at hbase
    refine ⟨hbase, ?_⟩
    rw [hbase]
    intro hco
    have := congrArg List.length hco
    simp at this
  · intro cs c hcs hc
    have : trailingFragment text = [] := by
      rw [hcs, trailingFragment, trailingFragmentAux_append cs c [], if_pos hc]
    rw [hbase, this]
    simp

/-- Witness for C3: a text with a non-empty trailing fragment and a text
ending in a terminator. -/
theorem segmentation_asymmetry_witness :
    (trailingFragment "a. x".data ≠ []
      ∧ splitSentences "a. x".data
          = analyzeSentences "a. x".data ++ [trailingFragment "a. x".data])
    ∧ splitSentences "ab.".data = analyzeSentences "ab.".data :=
  ⟨⟨by decide, ((segmentation_asymmetry "a. x".data).2.1 (by decide)).1⟩,
   (segmentation_asymmetry "ab.".data).2.2 "ab".data '.' (by decide) (by decide)⟩

/-- Every chunk the splitting loop closes early (all but the last) ends in
a conjunction followed by the appended space. -/
theorem splitChunksLoop_dropLast_conj (limit : Nat) (ws : List (List Char)) :
    ∀ chunk count, ∀ ch ∈ (splitChunksLoop limit ws chunk count).dropLast,
      ∃ pre w, isConj w ∧ ch = pre ++ w ++ [' '] := by
  induction ws with
  | nil =>
    intro chunk count ch hch
    by_cases h : chunk = [] <;> simp [splitChunksLoop, h] at hch
  | cons w ws ih =>
    intro chunk count ch hch
    by_cases h : isConj w ∧ count + 1 ≥ limit / 2
    · simp only [splitChunksLoop, if_pos h] at hch
      cases hrec : splitChunksLoop limit ws [] 0 with
      | nil => simp [hrec] at hch
      | cons a as =>
        rw [hrec, List.dropLast_cons₂, List.mem_cons] at hch
        rcases hch with hch | hch
        · exact ⟨chunk, w, h.1, hch⟩
        · exact ih [] 0 ch (by rw [hrec]; exact hch)
    · simp only [splitChunksLoop, if_neg h] at hch
      exact ih _ _ ch hch

/-- C4: `trySplit` leaves a sentence within the level limit (10 for A1, 15
for A2) untouched as a single-element sequence; a chunk is only ever closed
right after a conjunction (which stays in the closed chunk) once the
running count reaches limit/2; an over-limit A1 sentence of 6 words, "and",
then 6 words splits into exactly the two chunks at the "and" boundary,
while an over-limit sentence whose only "and" sits before the halfway
point stays one chunk. -/
theorem trySplit_spec (s : List Char) :
    ((wsTokens s).length ≤ 10 → trySplit .A1 s = [s])
    ∧ ((wsTokens s).length ≤ 15 → trySplit .A2 s = [s])
    ∧ splitLimit .A1 = 10 ∧ splitLimit .A2 = 15
    ∧ (∀ lvl ch, ch ∈ (trySplit lvl s).dropLast →
        ∃ pre w, isConj w ∧ ch = pre ++ w ++ [' '])
    ∧ trySplit .A1 "a a a a a a and b b b b b b".data
        = ["a a a a a a and ".data, "b b b b b b ".data]
    ∧ trySplit .A1 "a and b c d e f g h i j".data
        = ["a and b c d e f g h i j ".data] := by
  refine ⟨?_, ?_, rfl, rfl, ?_, by decide, by decide⟩
  · intro h
    simp [trySplit, splitLimit, h]
  · intro h
    simp [trySplit, splitLimit, h]
  · intro lvl ch hch
    by_cases h : (wsTokens s).length ≤ splitLimit lvl
    · simp [trySplit, h] at hch
    · refine splitChunksLoop_dropLast_conj (splitLimit lvl) (wsTokens s) [] 0 ch ?_
      simpa [trySplit, h] using hch

/-- Witness for C4 at a two-token sentence. -/
theorem trySplit_spec_witness :
    (wsTokens "hi there.".data).length ≤ 10
    ∧ trySplit .A1 "hi there.".data = ["hi there.".data] :=
  ⟨by decide, (trySplit_spec "hi there.".data).1 (by decide)⟩

/-- C5: `getSimplerWord` lowercases before lookup, returns the mapped
simple word on a hit and the original word (original casing) on a miss;
in particular A1 maps "UTILIZE" to "use" and leaves "xyz" unchanged. -/
theorem getSimplerWord_spec (lvl : CEFRLevel) (word : List Char) :
    (∀ simple, (wordMap lvl).lookup (word.map toLowerC) = some simple →
        getSimplerWord lvl word = simple)
    ∧ ((wordMap lvl).lookup (word.map toLowerC) = none →
        getSimplerWord lvl word = word)
    ∧ getSimplerWord .A1 "UTILIZE".data = "use".data
    ∧ getSimplerWord .A1 "xyz".data = "xyz".data
    ∧ getSimplerWord .A2 "xyz".data = "xyz".data := by
  refine ⟨?_, ?_, by decide, by decide, by decide⟩
  · intro simple h
    simp [getSimplerWord, h]
  · intro h
    simp [getSimplerWord, h]

/-- Witness for C5: a table hit and a table miss. -/
theorem getSimplerWord_spec_witness :
    ((wordMap .A1).lookup ("UTILIZE".data.map toLowerC) = some "use".data
      ∧ getSimplerWord .A1 "UTILIZE".data = "use".data)
    ∧ ((wordMap .A1).lookup ("xyz".data.map toLowerC) = none
      ∧ getSimplerWord .A1 "xyz".data = "xyz".data) :=
  ⟨⟨by decide, (getSimplerWord_spec .A1 "UTILIZE".data).1 "use".data (by decide)⟩,
   ⟨by decide, (getSimplerWord_spec .A1 "xyz".data).2.1 (by decide)⟩⟩

/-- C6 counterexample: `rejoin` emits every processed chunk followed by a
space, so `rejoin ["hello world"]` carries a trailing space and is not
exactly "Hello world.". -/
theorem rejoin_single_counterexample :
    rejoin ["hello world".data] ≠ "Hello world.".data := by
  decide

/-- C6 (amended): `rejoin ["hello world"]` returns exactly "Hello world. ":
first character uppercased, a period appended, and one trailing space. -/
theorem rejoin_single_amended :
    rejoin ["hello world".data] = "Hello world. ".data := by
  decide

/-- The analyzer's sentence scan finds nothing in terminator-free text. -/
theorem analyzeSplitAux_of_no_terminator (l : List Char)
    (h : ∀ c ∈ l, isTerminator c = false) :
    ∀ cur, analyzeSplitAux l cur = [] := by
  induction l with
  | nil => intro cur; rfl
  | cons c rest ih =>
    intro cur
    have hc : isTerminator c = false := h c (by simp)
    simp only [analyzeSplitAux, hc]
    exact ih (fun d hd => h d (by simp [hd])) _

/-- C7: on the empty text, and on any text with no '.', '!' or '?',
`analyze` returns the all-zero metrics record with estimated level 0. -/
theorem analyze_no_terminator (text : List Char)
    (h : ∀ c ∈ text, isTerminator c = false) :
    analyze text = ⟨0, 0, 0, 0⟩ ∧ analyze "".data = ⟨0, 0, 0, 0⟩ := by
  have hs : analyzeSentences text = [] :=
    analyzeSplitAux_of_no_terminator text h []
  constructor
  · simp only [analyze, hs]
    rfl
  · rfl

/-- Witness for C7 at the terminator-free text "abc". -/
theorem analyze_no_terminator_witness :
    (∀ c ∈ "abc".data, isTerminator c = false) ∧ analyze "abc".data = ⟨0, 0, 0, 0⟩ :=
  ⟨by decide, (analyze_no_terminator "abc".data (by decide)).1⟩

/-- With enough fuel, the paren scan is the identity on paren-free input. -/
theorem stripParensFuel_of_no_paren (s : List Char) (h : '(' ∉ s) :
    ∀ fuel, s.length ≤ fuel → stripParensFuel fuel s = s := by
  induction s with
  | nil => intro fuel _; cases fuel <;> rfl
  | cons c rest ih =>
    intro fuel hfuel
    match fuel, hfuel with
    | f + 1, hf =>
      have hc : ¬ c = '(' := fun e => h (by simp [e])
      simp only [stripParensFuel, if_neg hc]
      have hf' : rest.length ≤ f := by
        simpa [Nat.succ_le_succ_iff] using hf
      rw [ih (fun hm => h (by simp [hm])) f hf']

theorem stripParensGo_of_no_paren (s : List Char) (h : '(' ∉ s) :
    stripParensGo s = s :=
  stripParensFuel_of_no_paren s h s.length le_rfl

/-- Flattening a map that sends every element to its singleton recovers
the list. -/
theorem flatten_map_eq_self {α : Type} (l : List α) (f : α → List α)
    (h : ∀ x ∈ l, f x = [x]) : (l.map f).flatten = l := by
  induction l with
  | nil => rfl
  | cons x xs ih =>
    simp only [List.map_cons, List.flatten_cons, h x (by simp)]
    rw [ih (fun y hy => h y (by simp [hy]))]
    rfl

/-- Under the no-op hypotheses, the full rewrite of a sentence is the
singleton of the sentence. -/
theorem rewrite_eq_singleton (s : List Char)
    (h1 : '(' ∉ s) (h2 : swapWords .A1 s = s)
    (h3 : (wsTokens s).length ≤ 10) :
    rewrite .A1 s = [s] := by
  unfold rewrite fixPassive
  rw [show stripParens .A1 s = stripParensGo s from rfl,
    stripParensGo_of_no_paren s h1, h2]
  simp [trySplit, splitLimit, h3]

/-- C8 counterexample: in the text "a  b." (double space) no stripped,
lowercased word is a Beginner vocabulary key and the single sentence has
two whitespace tokens, yet `run` does not reproduce the rejoined original
sentences — `swapWords` collapses the double space. -/
theorem run_noop_counterexample :
    (∀ sent ∈ splitSentences "a  b.".data,
        (wsTokens sent).length ≤ 10
        ∧ ∀ tok ∈ wsTokens sent,
            (wordMap .A1).lookup ((splitPunct tok).1.map toLowerC) = none)
    ∧ (run .A1 "a  b.".data).simplified ≠ rejoin (splitSentences "a  b.".data) := by
  decide

/-- C8 (amended): for every text each of whose segmented sentences
contains no '(' character, is left fixed by `swapWords` (in particular no
stripped, lowercased word is a Beginner key and tokens are single-space
separated) and has at most 10 whitespace tokens, the Beginner run output
is exactly the rejoined original sentences. -/
theorem run_noop_amended (text : List Char)
    (h : ∀ sent ∈ splitSentences text,
        '(' ∉ sent ∧ swapWords .A1 sent = sent ∧ (wsTokens sent).length ≤ 10) :
    (run .A1 text).simplified = rejoin (splitSentences text) := by
  show rejoin ((splitSentences text).map (rewrite .A1)).flatten
      = rejoin (splitSentences text)
  rw [flatten_map_eq_self _ _ (fun s hs =>
    rewrite_eq_singleton s (h s hs).1 (h s hs).2.1 (h s hs).2.2)]

/-- Witness for the amended C8 at the text "the cat sat.". -/
theorem run_noop_amended_witness :
    (∀ sent ∈ splitSentences "the cat sat.".data,
        '(' ∉ sent ∧ swapWords .A1 sent = sent ∧ (wsTokens sent).length ≤ 10)
    ∧ (run .A1 "the cat sat.".data).simplified
        = rejoin (splitSentences "the cat sat.".data) :=
  ⟨by decide, run_noop_amended "the cat sat.".data (by decide)⟩

/-- C9: the pipeline's sentence segmentation is lossless — concatenating
the sentences returned by `splitSentences` reproduces the text exactly. -/
theorem splitSentences_lossless (text : List Char) :
    (splitSentences text).flatten = text := by
  have h2 := analyzeSplitAux_join text []
  simp only [List.nil_append] at h2
  show (splitSentencesAux text []).flatten = text
  rw [splitSentencesAux_eq text [], List.flatten_append]
  split_ifs with ht
  · rw [ht] at h2
    simpa using h2
  · simpa using h2

/-- The chunks of the splitting loop flatten to the words, each followed by
one space, prefixed by the running chunk. -/
theorem splitChunksLoop_flatten (limit : Nat) (ws : List (List Char)) :
    ∀ chunk count, (splitChunksLoop limit ws chunk count).flatten
      = chunk ++ (ws.map (fun w => w ++ [' '])).flatten := by
  induction ws with
  | nil =>
    intro chunk count
    by_cases h : chunk = [] <;> simp [splitChunksLoop, h]
  | cons w ws ih =>
    intro chunk count
    by_cases h : isConj w ∧ count + 1 ≥ limit / 2 <;>
      simp [splitChunksLoop, h, ih]

/-- Scanning a whitespace-free block extends the running token. -/
theorem wsTokensAux_append_of_no_space (w : List Char)
    (h : ∀ c ∈ w, isSpaceC c = false) :
    ∀ rest cur, wsTokensAux (w ++ rest) cur = wsTokensAux rest (cur ++ w) := by
  induction w with
  | nil => intro rest cur; simp
  | cons c cs ih =>
    intro rest cur
    have hc : isSpaceC c = false := h c (by simp)
    simp only [List.cons_append, wsTokensAux, hc, Bool.false_eq_true, if_false,
      List.append_eq]
    rw [ih (fun d hd => h d (by simp [hd])) rest (cur ++ [c])]
    simp

/-- Every token produced by the whitespace scan is non-empty and contains
no whitespace, provided the running token is whitespace-free. -/
theorem wsTokensAux_tokens_ok (s : List Char) :
    ∀ cur, (∀ c ∈ cur, isSpaceC c = false) →
      ∀ w ∈ wsTokensAux s cur, w ≠ [] ∧ ∀ c ∈ w, isSpaceC c = false := by
  induction s with
  | nil =>
    intro cur hcur w hw
    by_cases h : cur = []
    · simp [wsTokensAux, h] at hw
    · simp only [wsTokensAux, if_neg h, List.mem_singleton] at hw
      subst hw
      exact ⟨h, hcur⟩
  | cons c rest ih =>
    intro cur hcur w hw
    simp only [wsTokensAux] at hw
    by_cases hc : isSpaceC c
    · rw [if_pos hc] at hw
      by_cases h0 : cur = []
      · rw [if_pos h0] at hw
        exact ih [] (by simp) w hw
      · rw [if_neg h0] at hw
        rcases List.mem_cons.mp hw with h | h
        · subst h; exact ⟨h0, hcur⟩
        · exact ih [] (by simp) w h
    · rw [if_neg hc] at hw
      refine ih (cur ++ [c]) ?_ w hw
      intro d hd
      rcases List.mem_append.mp hd with h | h
      · exact hcur d h
      · simp only [List.mem_singleton] at h
        subst h
        simpa using hc

/-- Tokenizing the concatenation "each word followed by one space" of a
list of non-empty, whitespace-free words recovers the words. -/
theorem wsTokens_spaced_flatten (ws : List (List Char))
    (h : ∀ w ∈ ws, w ≠ [] ∧ ∀ c ∈ w, isSpaceC c = false) :
    wsTokens ((ws.map (fun w => w ++ [' '])).flatten) = ws := by
  induction ws with
  | nil => rfl
  | cons w rest ih =>
    have hw := h w (by simp)
    have hflat : (((w :: rest).map (fun w => w ++ [' '])).flatten)
        = w ++ (' ' :: (rest.map (fun w => w ++ [' '])).flatten) := by
      simp
    rw [wsTokens, hflat, wsTokensAux_append_of_no_space w hw.2 _ []]
    simp only [List.nil_append, wsTokensAux]
    rw [if_pos (by decide), if_neg hw.1]
    rw [show wsTokensAux ((rest.map (fun w => w ++ [' '])).flatten) [] =
        wsTokens ((rest.map (fun w => w ++ [' '])).flatten) from rfl]
    rw [ih (fun y hy => h y (by simp [hy]))]

/-- C10: `trySplit` never loses, duplicates, alters or reorders words —
the whitespace tokens of the concatenated chunks are exactly the
whitespace tokens of the input sentence, at either level. -/
theorem trySplit_preserves_tokens (lvl : CEFRLevel) (s : List Char) :
    wsTokens ((trySplit lvl s).flatten) = wsTokens s := by
  show wsTokens ((if (wsTokens s).length ≤ splitLimit lvl then [s]
      else splitChunksLoop (splitLimit lvl) (wsTokens s) [] 0).flatten) = wsTokens s
  split_ifs with h
  · simp
  · rw [splitChunksLoop_flatten]
    simp only [List.nil_append]
    exact wsTokens_spaced_flatten (wsTokens s) (wsTokensAux_tokens_ok s [] (by simp))

end ArticleSimplifier

